import Mathlib

/-!
# Verification of the vue-html-renderer rendering pipeline

A shallow embedding of the repository's two renderer pipelines:

* the direct renderer (`src/renderers/directRenderer.ts`): script extraction
  with positional comment markers, script materialization, and the
  sequential / async / deferred execution scheduler;
* the shadow renderer's font-face pass
  (`src/renderers/shadowRenderer.ts`, `extractAndInjectFontFaces`): brace-counted
  extraction of font-face blocks from stylesheet text and the append-only
  injection into a shared style element;
* the shared utilities (`src/extras/utils.ts`): `normalizeAttr`,
  `findPlaceholderNode` (the marker locator), and `clearElement`.

JavaScript strings are embedded as Lean `String`s; character-level operations
(`trim`, `toLowerCase`, `includes`, `indexOf`) are re-implemented over the
underlying character list so that every definition evaluates by kernel
reduction.  DOM trees are embedded as a `Node` inductive; DOM mutation becomes
functional tree rewriting.  HTML parsing itself is out of scope (the source
delegates it to `innerHTML` / `DOMParser`), so renderer entry points take the
already-parsed node list.  Identifier generation (`uid()`, which draws on the
clock and a random source) is embedded as an explicit id-supply function
`Nat → String` plus a counter.  Promise-based completion is embedded
cooperatively: each script insertion yields its DOM effect plus an optional
settlement, with external-script settlement driven by an explicit load/error
event oracle (`none` = the event never fires, i.e. a hung request).
-/

/-! ## Character-level string operations (JS semantics) -/

/-- JS whitespace test used by `String.prototype.trim` (ASCII part; the inputs
manipulated by the renderer only involve these). -/
def jsWs (c : Char) : Bool :=
  c = ' ' || c = '\t' || c = '\n' || c = '\r' || c = '\x0b' || c = '\x0c'

/-- Trim a character list at both ends, as `String.prototype.trim`. -/
def trimL (cs : List Char) : List Char :=
  ((cs.dropWhile jsWs).reverse.dropWhile jsWs).reverse

/-- `s.trim()` on an embedded JS string. -/
def jsTrim (s : String) : String :=
  ⟨trimL s.data⟩

/-- `s.toLowerCase()` on an embedded JS string. -/
def jsToLower (s : String) : String :=
  ⟨s.data.map Char.toLower⟩

/-- First-occurrence substring search: `findSub pat cs = some (pre, suf)`
means `cs = pre ++ suf`, `pat` is a prefix of `suf`, and `pre` is the shortest
such split (this is `String.prototype.indexOf`: `pre.length` is the index). -/
def findSub (pat : List Char) : List Char → Option (List Char × List Char)
  | [] => if pat.isPrefixOf [] then some ([], []) else none
  | c :: cs =>
    if pat.isPrefixOf (c :: cs) then some ([], c :: cs)
    else (findSub pat cs).map (fun r => (c :: r.1, r.2))

/-- `hay.includes(needle)` on character lists. -/
def containsSub (hay pat : List Char) : Bool :=
  (findSub pat hay).isSome

/-- `hay.includes(needle)` on embedded JS strings. -/
def containsStr (hay pat : String) : Bool :=
  containsSub hay.data pat.data

/-! ## DOM model

A DOM node is an element (tag, attributes in document order, children), a
comment node, or a text node.  Attribute maps are association lists in
insertion order; element attribute names are unique on real DOM elements,
which theorems assume where needed via a `Nodup` hypothesis. -/

inductive Node where
  | elem (tag : String) (attrs : List (String × String)) (children : List Node)
  | comment (value : String)
  | text (value : String)

/-- `attrs[name]`: first binding of `name` in an attribute list. -/
def lookupAttr : List (String × String) → String → Option String
  | [], _ => none
  | (k, v) :: rest, key => if k = key then some v else lookupAttr rest key

/-- JS truthiness of `attrs[name]` (present and non-empty). -/
def attrTruthy (attrs : List (String × String)) (key : String) : Bool :=
  match lookupAttr attrs key with
  | none => false
  | some v => v ≠ ""

mutual

/-- `node.textContent` (text of all descendant text nodes; comments excluded). -/
def textContentN : Node → String
  | .elem _ _ cs => textContentL cs
  | .comment _ => ""
  | .text v => v

/-- `textContent` concatenated over a node list. -/
def textContentL : List Node → String
  | [] => ""
  | n :: ns => textContentN n ++ textContentL ns

end

/-- Attribute list of an element node (empty for comment/text). -/
def nodeAttrs : Node → List (String × String)
  | .elem _ a _ => a
  | _ => []

/-- Child list of an element node (empty for comment/text). -/
def nodeChildren : Node → List Node
  | .elem _ _ cs => cs
  | _ => []

/-- `el.getAttribute name` on the node model. -/
def getAttrN (n : Node) (key : String) : Option String :=
  lookupAttr (nodeAttrs n) key

/-! ## Embedded utilities (`src/extras/utils.ts`) -/

/-- `normalizeAttr`: trim, mapping a non-string/falsy value to the empty
string (on an always-string embedding the falsy branch coincides with
trimming the empty string). -/
def normalizeAttr (val : String) : String :=
  jsTrim val

/-- The substring `findPlaceholderNode` looks for in comment payloads:
`SCRIPT_PLACEHOLDER:` followed by the record id (note: this differs from the
`DYNAMIC_HTML_SCRIPT:` prefix the extractor writes). -/
def placeholderNeedle (id : String) : String :=
  "SCRIPT_PLACEHOLDER:" ++ id

mutual

/-- `findPlaceholderNode` restricted to one subtree: the first comment node
(tree order, as produced by a `SHOW_COMMENT` TreeWalker) whose value contains
`SCRIPT_PLACEHOLDER:` ++ id; returns its payload. -/
def findPlaceholderInNode (id : String) : Node → Option String
  | .comment v => if containsStr v (placeholderNeedle id) then some v else none
  | .elem _ _ cs => findPlaceholderInList id cs
  | .text _ => none

/-- `findPlaceholderNode root id` over the root's child list. -/
def findPlaceholderInList (id : String) : List Node → Option String
  | [] => none
  | n :: ns =>
    match findPlaceholderInNode id n with
    | some v => some v
    | none => findPlaceholderInList id ns

end

/-- `findPlaceholderNode(root, id)` from `utils.ts`: walk all comments under
`root` in document order and return the first whose value contains
`SCRIPT_PLACEHOLDER:` ++ id. -/
def findPlaceholderNode (root : List Node) (id : String) : Option String :=
  findPlaceholderInList id root

mutual

/-- Replace, in one subtree, the first comment (tree order) whose value
satisfies `p` with `new`; `none` if no such comment exists.  This is
`placeholder.replaceWith(s)` after a successful `findPlaceholderNode`. -/
def replaceCommentInNode (p : String → Bool) (nw : Node) : Node → Option Node
  | .comment v => if p v then some nw else none
  | .elem t a cs => (replaceCommentInList p nw cs).map (Node.elem t a)
  | .text _ => none

/-- `replaceCommentInNode` over a child list (first match in document order). -/
def replaceCommentInList (p : String → Bool) (nw : Node) : List Node → Option (List Node)
  | [] => none
  | n :: ns =>
    match replaceCommentInNode p nw n with
    | some n2 => some (n2 :: ns)
    | none => (replaceCommentInList p nw ns).map (n :: ·)

end

/-! ## Script metadata (`IScriptMeta` from `src/extras/types.ts`) -/

structure ScriptMeta where
  id : String
  attrs : List (String × String)
  code : Option String
  hasSrc : Bool
  isAsync : Bool
  isDefer : Bool
  isModule : Bool
deriving DecidableEq

/-- The payload the extractor writes into a positional marker comment:
`DYNAMIC_HTML_SCRIPT:` followed by the record id
(`directRenderer.ts`, `document.createComment`). -/
def markerPayload (id : String) : String :=
  "DYNAMIC_HTML_SCRIPT:" ++ id

/-- Build one ScriptMeta from a script element's attributes and children,
exactly as the extraction loop does: attributes copied verbatim;
`isAsync`/`isDefer` from attribute presence; `isModule` by trimmed,
lower-cased comparison of the `type` attribute to `"module"`; `hasSrc` from
the truthiness of the `src` DOM property (an `src` attribute, of any value,
resolves to a non-empty URL, so presence of the attribute models `!!src`);
`code` is the text content for inline scripts and `none` for external ones. -/
def mkScriptMeta (id : String) (attrs : List (String × String)) (children : List Node) :
    ScriptMeta :=
  let isAsync := (lookupAttr attrs "async").isSome
  let isDefer := (lookupAttr attrs "defer").isSome
  let typeAttr := jsToLower (jsTrim ((lookupAttr attrs "type").getD ""))
  let hasSrc := (lookupAttr attrs "src").isSome
  { id := id
    attrs := attrs
    code := if hasSrc then none else some (textContentL children)
    hasSrc := hasSrc
    isAsync := isAsync
    isDefer := isDefer
    isModule := typeAttr = "module" }

mutual

/-- Extraction pass over one node (`extractScriptsWithPlaceholders`): a script
element is replaced in place by a comment carrying `DYNAMIC_HTML_SCRIPT:` ++ a
fresh id and contributes one ScriptMeta; other elements are rewritten
recursively.  `uidf`/counter embed `uid()`; results are in document order,
matching `querySelectorAll('script')` tree order. -/
def extractNode (uidf : Nat → String) (c : Nat) : Node → Nat × Node × List ScriptMeta
  | .elem tag attrs cs =>
    if tag = "script" then
      let id := uidf c
      (c + 1, .comment (markerPayload id), [mkScriptMeta id attrs cs])
    else
      let r := extractNodes uidf c cs
      (r.1, .elem tag attrs r.2.1, r.2.2)
  | n => (c, n, [])

/-- Extraction pass over a sibling list, left to right. -/
def extractNodes (uidf : Nat → String) (c : Nat) : List Node → Nat × List Node × List ScriptMeta
  | [] => (c, [], [])
  | n :: ns =>
    let r1 := extractNode uidf c n
    let r2 := extractNodes uidf r1.1 ns
    (r2.1, r1.2.1 :: r2.2.1, r1.2.2 ++ r2.2.2)

end

/-- `extractScriptsWithPlaceholders(container)`: replaces every script element
under the container with its positional marker and returns the rewritten
children plus the ScriptRecords in document order. -/
def extractScriptsWithPlaceholders (uidf : Nat → String) (c : Nat) (container : List Node) :
    List Node × List ScriptMeta :=
  let r := extractNodes uidf c container
  (r.2.1, r.2.2)

/-- The four attribute names `createExecutableScript` refuses to copy
verbatim. -/
def specialAttrs : List String := ["async", "defer", "type", "src"]

/-- `createExecutableScript(meta)`: fresh script element; non-special
attributes forwarded in order; `type="module"`, `async`, `defer` set from the
flags (setting a boolean DOM property materializes the attribute with an empty
value); `src` set to the normalized source when `hasSrc` and the raw `src`
attribute is truthy, else `textContent` set to the inline code when present. -/
def createExecutableScript (meta : ScriptMeta) : Node :=
  let base := meta.attrs.filter (fun kv => !(specialAttrs.contains kv.1))
  let a1 := if meta.isModule then base ++ [("type", "module")] else base
  let a2 := if meta.isAsync then a1 ++ [("async", "")] else a1
  let a3 := if meta.isDefer then a2 ++ [("defer", "")] else a2
  if meta.hasSrc && attrTruthy meta.attrs "src" then
    .elem "script" (a3 ++ [("src", normalizeAttr ((lookupAttr meta.attrs "src").getD ""))]) []
  else
    match meta.code with
    | some c => .elem "script" a3 [.text c]
    | none => .elem "script" a3 []

example :
    extractScriptsWithPlaceholders (fun n => "uid-" ++ toString n) 0
      [.elem "div" [] [.elem "script" [] [.text "S1"]]] =
    ([.elem "div" [] [.comment "DYNAMIC_HTML_SCRIPT:uid-0"]],
      [⟨"uid-0", [], some "S1", false, false, false, false⟩]) := rfl

/-! ## Script scheduler (`renderDirectly` and helpers) -/

/-- A settled promise outcome.  The executor in `insertScriptAtPlaceholder`
can in principle resolve or reject; the theorems show rejection never
happens. -/
inductive PResult where
  | resolved
  | rejected
deriving DecidableEq

/-- The DOM event that settles an external script's load. -/
inductive ScriptEvent where
  | load
  | error
deriving DecidableEq

/-- Mutable state threaded through a direct render: the target's child list,
the shared execution log written by inline scripts (abstracting "each script
appends its label to a shared log": an inline script's observable effect is
recorded as its code string), and the console error log. -/
structure RenderState where
  children : List Node
  execLog : List String
  console : List String

/-- `insertScriptAtPlaceholder(root, meta)`: locate the first comment matching
`SCRIPT_PLACEHOLDER:` ++ meta.id; if absent, resolve immediately without
touching the tree.  Otherwise replace it with the materialized script.  For an
external script the promise settles when the load/error event fires (`ev`;
`none` models an event that never fires, leaving the promise pending);
an error is logged to the console and still resolves.  An inline script
executes synchronously on insertion (its code is appended to the shared
execution log) and resolves at the next microtask. -/
def insertScriptAtPlaceholder (st : RenderState) (meta : ScriptMeta)
    (ev : Option ScriptEvent) : RenderState × Option PResult :=
  match replaceCommentInList (fun v => containsStr v (placeholderNeedle meta.id))
      (createExecutableScript meta) st.children with
  | none => (st, some .resolved)
  | some ch2 =>
    if meta.hasSrc && attrTruthy meta.attrs "src" then
      match ev with
      | some .load => ({ st with children := ch2 }, some .resolved)
      | some .error =>
        ({ st with
            children := ch2
            console := st.console ++
              ["Error loading script " ++ ((lookupAttr meta.attrs "src").getD "")] },
          some .resolved)
      | none => ({ st with children := ch2 }, none)
    else
      ({ st with
          children := ch2
          execLog := st.execLog ++ (match meta.code with | some c => [c] | none => []) },
        some .resolved)

/-- The grouping loop of `renderDirectly`: push each record into the
sequential, async, or deferred array, `isAsync` first, else `isDefer`, else
sequential.  Returned in the order (sequential, asyncScripts, deferScripts). -/
def groupScripts : List ScriptMeta → List ScriptMeta × List ScriptMeta × List ScriptMeta
  | [] => ([], [], [])
  | m :: ms =>
    let r := groupScripts ms
    if m.isAsync then (r.1, m :: r.2.1, r.2.2)
    else if m.isDefer then (r.1, r.2.1, m :: r.2.2)
    else (m :: r.1, r.2.1, r.2.2)

/-- An awaited insertion loop (the sequential phase and the deferred phase):
each record's promise is awaited before the next starts; a pending promise
(hung external load) or a rejection stops the render from ever settling,
yielding `none`. -/
def runAwaited (evs : String → Option ScriptEvent) (st : RenderState) :
    List ScriptMeta → Option RenderState
  | [] => some st
  | m :: ms =>
    match insertScriptAtPlaceholder st m (evs m.id) with
    | (st2, some .resolved) => runAwaited evs st2 ms
    | _ => none

/-- The async phase: insertions are started back-to-back (`void ...`), the
executor's synchronous DOM work happens, but no completion is awaited. -/
def runFireAndForget (evs : String → Option ScriptEvent) (st : RenderState) :
    List ScriptMeta → RenderState
  | [] => st
  | m :: ms => runFireAndForget evs (insertScriptAtPlaceholder st m (evs m.id)).1 ms

/-- `clearElement(target)` / the clearing loop opening `renderDirectly`:
remove the first child until none remains. -/
def clearElement : List Node → List Node
  | [] => []
  | _ :: rest => clearElement rest

/-- The synchronous part of `renderDirectly`, up to and including appending
the parsed fragment: clear the target, extract scripts from the parsed markup
(markers substituted), and append everything to the emptied target.  Returns
the new child list and the extracted records. -/
def renderInsertStep (uidf : Nat → String) (target : List Node) (parsed : List Node) :
    List Node × List ScriptMeta :=
  let cleared := clearElement target
  let r := extractScriptsWithPlaceholders uidf 0 parsed
  (cleared ++ r.1, r.2)

/-- `renderDirectly(target, html)`: clear + extract + append, then the
three-phase scheduler: await each sequential record, fire async records
without awaiting, then (after the framework flush, which adds no DOM effect
of its own) await each deferred record.  `parsed` is the node list the
platform parser produced for the (normalized) markup; `evs` maps a record id
to the load/error event that eventually settles its external load, if any.
`none` means the returned promise never settles. -/
def renderDirectly (uidf : Nat → String) (evs : String → Option ScriptEvent)
    (target : RenderState) (parsed : List Node) : Option RenderState :=
  let r := renderInsertStep uidf target.children parsed
  let st1 : RenderState := { target with children := r.1 }
  let g := groupScripts r.2
  match runAwaited evs st1 g.1 with
  | none => none
  | some st2 =>
    let st3 := runFireAndForget evs st2 g.2.1
    runAwaited evs st3 g.2.2

/-! ## Font-face extraction (`shadowRenderer.ts`) -/

/-- The token `extractAndInjectFontFaces` scans for. -/
def ffToken : List Char := "@font-face".data

/-- The brace-counting inner loop: starting at depth `d` (the code enters with
`braceCount = 1`, just past the opening brace), consume characters, adjusting
the depth at every brace, until the depth returns to zero; returns the
consumed characters (ending at the matching closing brace) and the rest.
`none` when the text ends first (no matching closing brace). -/
def scanBraces : Nat → List Char → Option (List Char × List Char)
  | _, [] => none
  | d, c :: cs =>
    let d2 := if c = '{' then d + 1 else if c = '}' then d - 1 else d
    if d2 = 0 then some ([c], cs)
    else (scanBraces d2 cs).map (fun r => (c :: r.1, r.2))

/-- The per-style-block scanning loop of `extractAndInjectFontFaces`: find
`@font-face`, find the next opening brace, brace-count to the matching closing
brace, record the trimmed substring from the token through that brace, and
resume after it; any failure (token absent, no opening brace, no matching
closing brace) ends the scan of this block keeping the rules found so far.
Fuel bounds the iteration count (each iteration consumes at least the token,
so the text length suffices); the wrapper `extractFontFaceRules` supplies it. -/
def extractRulesLoop : Nat → List Char → List (List Char)
  | 0, _ => []
  | fuel + 1, cs =>
    match findSub ffToken cs with
    | none => []
    | some (_, atTok) =>
      match findSub ['{'] atTok with
      | none => []
      | some (beforeBrace, atBrace) =>
        match atBrace with
        | [] => []
        | b :: after =>
          match scanBraces 1 after with
          | none => []
          | some (consumed, rest) =>
            trimL (beforeBrace ++ b :: consumed) :: extractRulesLoop fuel rest

/-- All font-face rules extracted from one stylesheet text block. -/
def extractFontFaceRules (cs : List Char) : List (List Char) :=
  extractRulesLoop (cs.length + 1) cs

/-- Top-level document effects performed by the injection half of
`extractAndInjectFontFaces`. -/
inductive DocEffect where
  | lookup
  | create
  | append (rule : List Char)
deriving DecidableEq

/-- One step of the injection loop: append `'\n' ++ rule` to the accumulated
content unless the rule is already contained (as a substring) in `existing`,
the snapshot of the style element's text content taken before the loop. -/
def injectStep (existing : List Char) (acc : List Char) (r : List Char) : List Char :=
  if containsSub existing r then acc else acc ++ '\n' :: r

/-- `extractAndInjectFontFaces(doc, id)`: collect the rules of every style
block (document order); if none were found, do nothing.  Otherwise look up
the shared style element (`doc` is its current text content, `none` when the
element does not exist yet), creating it empty if absent, snapshot its
content, and run the append loop against that snapshot.  Returns the new
element state plus the list of top-level document effects performed. -/
def extractAndInjectFontFaces (styleTexts : List (List Char)) (doc : Option (List Char)) :
    Option (List Char) × List DocEffect :=
  let rules := styleTexts.flatMap extractFontFaceRules
  if rules.isEmpty then (doc, [])
  else
    let content0 := doc.getD []
    let existing := content0
    (some (rules.foldl (injectStep existing) content0),
      DocEffect.lookup :: (if doc.isSome then [] else [DocEffect.create]) ++
        (rules.filter (fun r => !containsSub existing r)).map DocEffect.append)

example :
    extractFontFaceRules "body{x} @font-face{a} q @font-face{b{c}d}".data =
    ["@font-face{a}".data, "@font-face{b{c}d}".data] := by decide

example :
    extractAndInjectFontFaces ["@font-face{a}@font-face{a}".data] none =
    (some ('\n' :: "@font-face{a}".data ++ '\n' :: "@font-face{a}".data),
      [DocEffect.lookup, DocEffect.create, DocEffect.append "@font-face{a}".data,
        DocEffect.append "@font-face{a}".data]) := by decide

/-! ## Basic lemmas -/

theorem clearElement_eq_nil (ns : List Node) : clearElement ns = [] := by
  induction ns with
  | nil => rfl
  | cons _ t ih => exact ih

/-- A concrete id supply standing in for `uid()`. -/
def uid0 : Nat → String := fun n => "uid-" ++ toString n

/-- An inline sequential script element whose code is its label. -/
def inlineScript (label : String) : Node :=
  .elem "script" [] [.text label]

/-! ## C3: the scheduler's three-way partition -/

/-- C3.  The grouping loop of `renderDirectly` partitions the record sequence,
preserving relative order (each group is a `filter` of the input), by the
precedence async, else defer, else sequential; in particular a record with
both flags set lands in the async group. -/
theorem groupScripts_partition (ms : List ScriptMeta) :
    groupScripts ms =
      (ms.filter (fun m => !m.isAsync && !m.isDefer),
        ms.filter (fun m => m.isAsync),
        ms.filter (fun m => !m.isAsync && m.isDefer)) ∧
    (∀ m, m ∈ ms → m.isAsync = true → m.isDefer = true →
      m ∈ (groupScripts ms).2.1) := by
  have key : ∀ l : List ScriptMeta,
      groupScripts l =
        (l.filter (fun m => !m.isAsync && !m.isDefer),
          l.filter (fun m => m.isAsync),
          l.filter (fun m => !m.isAsync && m.isDefer)) := by
    intro l
    induction l with
    | nil => rfl
    | cons m t ih =>
      simp only [groupScripts, ih, List.filter_cons]
      by_cases ha : m.isAsync <;> by_cases hd : m.isDefer <;> simp [ha, hd]
  refine ⟨key ms, fun m hm ha _ => ?_⟩
  rw [key ms]
  exact List.mem_filter.mpr ⟨hm, ha⟩

/-- C3 witness: a record with both `async` and `defer` set is placed in the
async group. -/
theorem groupScripts_partition_witness :
    (⟨"i", [], none, false, true, true, false⟩ : ScriptMeta) ∈
      (groupScripts [⟨"i", [], none, false, true, true, false⟩]).2.1 :=
  (groupScripts_partition [⟨"i", [], none, false, true, true, false⟩]).2 _
    (List.mem_singleton.mpr rfl) rfl rfl

/-! ## C10: direct render replaces all prior content -/

/-- C10.  The clearing loop of `renderDirectly` removes every pre-existing
child, and after the synchronous insertion step the target's children are
exactly the nodes derived from the new markup (scripts replaced by markers):
no prior content survives. -/
theorem renderInsertStep_replaces_content (uidf : Nat → String)
    (target parsed : List Node) :
    clearElement target = [] ∧
    (renderInsertStep uidf target parsed).1 =
      (extractScriptsWithPlaceholders uidf 0 parsed).1 := by
  refine ⟨clearElement_eq_nil target, ?_⟩
  simp [renderInsertStep, clearElement_eq_nil]

/-! ## C6: no document mutation when no font-face rule is found -/

/-- C6.  When zero font-face rules are extracted across all style blocks, the
injection half of `extractAndInjectFontFaces` performs no top-level document
effect at all: the style-element state is returned unchanged and the effect
trace (lookup / create / append) is empty. -/
theorem fontFaces_no_rules_no_mutation (styleTexts : List (List Char))
    (doc : Option (List Char))
    (h : styleTexts.flatMap extractFontFaceRules = []) :
    extractAndInjectFontFaces styleTexts doc = (doc, []) := by
  simp [extractAndInjectFontFaces, h]

/-- C6 witness: a stylesheet with no font-face block produces zero rules and
leaves an absent style element absent with no effects. -/
theorem fontFaces_no_rules_no_mutation_witness :
    ["body{c}".data].flatMap extractFontFaceRules = [] ∧
    extractAndInjectFontFaces ["body{c}".data] none = (none, []) :=
  ⟨by decide, fontFaces_no_rules_no_mutation _ _ (by decide)⟩

/-! ## C1: the marker the extractor writes is never found by the scheduler -/

/-- C1 (code bug).  The extractor replaces a script with a comment whose
payload is `DYNAMIC_HTML_SCRIPT:` ++ id, but the locator the scheduler uses,
`findPlaceholderNode`, searches comment payloads for `SCRIPT_PLACEHOLDER:` ++
id.  Concretely: extracting a one-script container yields the marker comment,
yet `findPlaceholderNode` returns `none` on it, and
`insertScriptAtPlaceholder` consequently no-ops (tree unchanged, promise
resolved) instead of replacing the marker with the live script element. -/
theorem marker_prefix_mismatch :
    extractScriptsWithPlaceholders uid0 0 [inlineScript "S1"] =
      ([Node.comment (markerPayload "uid-0")],
        [mkScriptMeta "uid-0" [] [Node.text "S1"]]) ∧
    findPlaceholderNode [Node.comment (markerPayload "uid-0")] "uid-0" = none ∧
    insertScriptAtPlaceholder ⟨[Node.comment (markerPayload "uid-0")], [], []⟩
        (mkScriptMeta "uid-0" [] [Node.text "S1"]) none =
      (⟨[Node.comment (markerPayload "uid-0")], [], []⟩, some PResult.resolved) :=
  ⟨rfl, rfl, rfl⟩

/-! ## C2: three sequential scripts never execute -/

/-- C2 (code bug).  Rendering direct-mode markup with three inline sequential
scripts S1, S2, S3 does resolve, but because no positional marker is ever
found (C1), no script element is inserted and nothing executes: the shared
execution log is `[]`, not `["S1", "S2", "S3"]`, and the three marker
comments are still in the target. -/
theorem render_three_sequential_scripts_no_execution :
    (renderDirectly uid0 (fun _ => none) ⟨[], [], []⟩
        [inlineScript "S1", inlineScript "S2", inlineScript "S3"]).map
        RenderState.execLog = some [] ∧
    (renderDirectly uid0 (fun _ => none) ⟨[], [], []⟩
        [inlineScript "S1", inlineScript "S2", inlineScript "S3"]).map
        RenderState.execLog ≠ some ["S1", "S2", "S3"] ∧
    (renderDirectly uid0 (fun _ => none) ⟨[], [], []⟩
        [inlineScript "S1", inlineScript "S2", inlineScript "S3"]).map
        RenderState.children =
      some [Node.comment (markerPayload "uid-0"),
        Node.comment (markerPayload "uid-1"),
        Node.comment (markerPayload "uid-2")] :=
  ⟨rfl, by decide, rfl⟩

/-! ## C9: the completion signal does not await async scripts -/

/-- C9.  For direct-mode markup with one async external script and one
sequential inline script, the promise returned by `renderDirectly` resolves
(result is `some`) even when the async script's load event never fires
(`evs` yields `none` for its record id): the async group is fired without
being awaited, and only the sequential and deferred phases gate the returned
signal. -/
theorem renderDirectly_resolves_with_hung_async
    (evs : String → Option ScriptEvent) (_h : evs "uid-0" = none) :
    (renderDirectly uid0 evs ⟨[], [], []⟩
        [Node.elem "script" [("async", ""), ("src", "a.js")] [],
          inlineScript "S1"]).isSome = true := rfl

/-- C9 witness: with the oracle that settles nothing, the render still
resolves. -/
theorem renderDirectly_resolves_with_hung_async_witness :
    (renderDirectly uid0 (fun _ => none) ⟨[], [], []⟩
        [Node.elem "script" [("async", ""), ("src", "a.js")] [],
          inlineScript "S1"]).isSome = true :=
  renderDirectly_resolves_with_hung_async (fun _ => none) rfl

/-! ## C7: insertScriptAtPlaceholder error handling -/

mutual

theorem replaceCommentInNode_none_iff (id : String) (nw : Node) :
    ∀ n : Node,
      (replaceCommentInNode (fun v => containsStr v (placeholderNeedle id)) nw n = none ↔
        findPlaceholderInNode id n = none)
  | .comment v => by
    by_cases h : containsStr v (placeholderNeedle id) <;>
      simp [replaceCommentInNode, findPlaceholderInNode, h]
  | .elem t a cs => by
    simpa [replaceCommentInNode, findPlaceholderInNode, Option.map_eq_none'] using
      replaceCommentInList_none_iff id nw cs
  | .text _ => by simp [replaceCommentInNode, findPlaceholderInNode]

theorem replaceCommentInList_none_iff (id : String) (nw : Node) :
    ∀ ns : List Node,
      (replaceCommentInList (fun v => containsStr v (placeholderNeedle id)) nw ns = none ↔
        findPlaceholderInList id ns = none)
  | [] => by simp [replaceCommentInList, findPlaceholderInList]
  | n :: ns => by
    have h1 := replaceCommentInNode_none_iff id nw n
    have h2 := replaceCommentInList_none_iff id nw ns
    cases hr : replaceCommentInNode (fun v => containsStr v (placeholderNeedle id)) nw n with
    | some n2 =>
      cases hf : findPlaceholderInNode id n with
      | some v => simp [replaceCommentInList, findPlaceholderInList, hr, hf]
      | none => rw [hf] at h1; exact absurd (h1.mpr rfl) (by simp [hr])
    | none =>
      have hf : findPlaceholderInNode id n = none := h1.mp hr
      simp [replaceCommentInList, findPlaceholderInList, hr, hf, Option.map_eq_none', h2]

end

/-- C7.  `insertScriptAtPlaceholder` never rejects: whatever event settles an
external load, the promise is resolved or still pending, never rejected; when
the record's placeholder cannot be found under the root the call resolves
immediately as a no-op (state untouched, nothing inserted, no error); and for
an external script whose load errors, the failure is logged to the console
and the promise still resolves (the error counts as completion). -/
theorem insertScript_error_handling (st : RenderState) (meta : ScriptMeta)
    (ev : Option ScriptEvent) :
    (insertScriptAtPlaceholder st meta ev).2 ≠ some PResult.rejected ∧
    (findPlaceholderNode st.children meta.id = none →
      insertScriptAtPlaceholder st meta ev = (st, some PResult.resolved)) ∧
    ((meta.hasSrc && attrTruthy meta.attrs "src") = true →
      (findPlaceholderNode st.children meta.id).isSome = true →
      (insertScriptAtPlaceholder st meta (some ScriptEvent.error)).2 = some PResult.resolved ∧
      (insertScriptAtPlaceholder st meta (some ScriptEvent.error)).1.console =
        st.console ++
          ["Error loading script " ++ ((lookupAttr meta.attrs "src").getD "")]) := by
  refine ⟨?_, ?_, ?_⟩
  · cases hr : replaceCommentInList (fun v => containsStr v (placeholderNeedle meta.id))
        (createExecutableScript meta) st.children with
    | none => simp [insertScriptAtPlaceholder, hr]
    | some ch2 =>
      by_cases hext : (meta.hasSrc && attrTruthy meta.attrs "src") = true
      · cases ev with
        | none => simp [insertScriptAtPlaceholder, hr, hext]
        | some e => cases e <;> simp [insertScriptAtPlaceholder, hr, hext]
      · simp [insertScriptAtPlaceholder, hr, hext]
  · intro hfind
    have hr : replaceCommentInList (fun v => containsStr v (placeholderNeedle meta.id))
        (createExecutableScript meta) st.children = none :=
      (replaceCommentInList_none_iff meta.id (createExecutableScript meta) st.children).mpr hfind
    simp [insertScriptAtPlaceholder, hr]
  · intro hext hfind
    cases hr : replaceCommentInList (fun v => containsStr v (placeholderNeedle meta.id))
        (createExecutableScript meta) st.children with
    | none =>
      have hfn : findPlaceholderNode st.children meta.id = none :=
        (replaceCommentInList_none_iff meta.id (createExecutableScript meta)
          st.children).mp hr
      rw [hfn] at hfind
      simp at hfind
    | some ch2 => simp [insertScriptAtPlaceholder, hr, hext]

/-- C7 witness: with the placeholder absent the call is a resolved no-op, and
with the placeholder present an erroring external script logs and resolves. -/
theorem insertScript_error_handling_witness :
    insertScriptAtPlaceholder ⟨[], [], []⟩
        ⟨"i", [("src", "u")], none, true, false, false, false⟩ none =
      (⟨[], [], []⟩, some PResult.resolved) ∧
    (insertScriptAtPlaceholder ⟨[Node.comment "SCRIPT_PLACEHOLDER:i"], [], []⟩
        ⟨"i", [("src", "u")], none, true, false, false, false⟩
        (some ScriptEvent.error)).2 = some PResult.resolved ∧
    (insertScriptAtPlaceholder ⟨[Node.comment "SCRIPT_PLACEHOLDER:i"], [], []⟩
        ⟨"i", [("src", "u")], none, true, false, false, false⟩
        (some ScriptEvent.error)).1.console = ["Error loading script " ++ "u"] :=
  ⟨(insertScript_error_handling ⟨[], [], []⟩
      ⟨"i", [("src", "u")], none, true, false, false, false⟩ none).2.1 rfl,
    ((insertScript_error_handling ⟨[Node.comment "SCRIPT_PLACEHOLDER:i"], [], []⟩
      ⟨"i", [("src", "u")], none, true, false, false, false⟩
      (some ScriptEvent.error)).2.2 (by decide) (by decide)).1,
    ((insertScript_error_handling ⟨[Node.comment "SCRIPT_PLACEHOLDER:i"], [], []⟩
      ⟨"i", [("src", "u")], none, true, false, false, false⟩
      (some ScriptEvent.error)).2.2 (by decide) (by decide)).2⟩

/-! ## C8: extraction / materialization round trip -/

theorem lookupAttr_append (xs ys : List (String × String)) (k : String) :
    lookupAttr (xs ++ ys) k = (lookupAttr xs k).or (lookupAttr ys k) := by
  induction xs with
  | nil => simp [lookupAttr]
  | cons kv rest ih =>
    obtain ⟨k0, v0⟩ := kv
    by_cases h : k0 = k <;> simp [lookupAttr, h, ih]

theorem lookupAttr_none_of_keys (xs : List (String × String)) (k : String)
    (h : ∀ kv ∈ xs, kv.1 ≠ k) : lookupAttr xs k = none := by
  induction xs with
  | nil => rfl
  | cons kv rest ih =>
    obtain ⟨k0, v0⟩ := kv
    simp only [lookupAttr, if_neg (h (k0, v0) (List.mem_cons_self _ _))]
    exact ih fun kv hkv => h kv (List.mem_cons_of_mem _ hkv)

theorem lookupAttr_of_mem_nodup (xs : List (String × String)) (k v : String)
    (hnd : (xs.map Prod.fst).Nodup) (hm : (k, v) ∈ xs) :
    lookupAttr xs k = some v := by
  induction xs with
  | nil => cases hm
  | cons kv rest ih =>
    obtain ⟨k0, v0⟩ := kv
    simp only [List.map_cons, List.nodup_cons] at hnd
    rcases List.mem_cons.mp hm with heq | hmem
    · injection heq with h1 h2
      subst h1
      subst h2
      simp [lookupAttr]
    · have hk : k0 ≠ k := by
        intro h
        subst h
        exact hnd.1 (List.mem_map.mpr ⟨(k0, v), hmem, rfl⟩)
      simp only [lookupAttr, if_neg hk]
      exact ih hnd.2 hmem

theorem lookupAttr_guarded_ne (p : Prop) [Decidable p] (a x k : String) (h : a ≠ k) :
    lookupAttr (if p then [(a, x)] else []) k = none := by
  split <;> simp [lookupAttr, h]

theorem lookupAttr_guarded_eq (p : Prop) [Decidable p] (a x : String) :
    lookupAttr (if p then [(a, x)] else []) a = if p then some x else none := by
  split <;> simp [lookupAttr]

/-- The attribute list `createExecutableScript` produces, in one canonical
append: forwarded non-special attributes, then the re-derived `type`,
`async`, `defer` and `src` entries guarded by the record's flags. -/
theorem createExecutableScript_attrs (m : ScriptMeta) :
    nodeAttrs (createExecutableScript m) =
      m.attrs.filter (fun kv => !(specialAttrs.contains kv.1)) ++
        ((if m.isModule then [("type", "module")] else []) ++
          ((if m.isAsync then [("async", "")] else []) ++
            ((if m.isDefer then [("defer", "")] else []) ++
              (if m.hasSrc && attrTruthy m.attrs "src" then
                [("src", normalizeAttr ((lookupAttr m.attrs "src").getD ""))]
              else [])))) := by
  unfold createExecutableScript
  by_cases hM : m.isModule = true <;> by_cases hA : m.isAsync = true <;>
    by_cases hD : m.isDefer = true <;>
      by_cases hS : (m.hasSrc && attrTruthy m.attrs "src") = true <;>
        cases hc : m.code <;>
          simp [hM, hA, hD, hS, hc, nodeAttrs, List.append_assoc]

/-- C8.  Round trip across extraction and materialization for a script
element with attribute list `attrs` (DOM attribute names are unique) and
child list `children`: on the element `createExecutableScript` re-creates
from the extracted record, every non-special attribute survives with name and
value unchanged, while `type`, `async`, `defer` and `src` are re-derived from
the record's flags — `type` is `module` exactly when `isModule`, `async` and
`defer` are present exactly when the corresponding flag is set, `src` is the
trimmed raw source value exactly when an external source is present (truthy
`src`), and otherwise the text content is the record's inline code. -/
theorem createExecutableScript_roundtrip (uidf : Nat → String) (c : Nat)
    (attrs : List (String × String)) (children : List Node)
    (hnd : (attrs.map Prod.fst).Nodup) :
    ∀ m ∈ (extractScriptsWithPlaceholders uidf c [Node.elem "script" attrs children]).2,
      (∀ k v, (k, v) ∈ attrs → ¬ k ∈ specialAttrs →
        getAttrN (createExecutableScript m) k = some v) ∧
      getAttrN (createExecutableScript m) "type" =
        (if m.isModule then some "module" else none) ∧
      getAttrN (createExecutableScript m) "async" =
        (if m.isAsync then some "" else none) ∧
      getAttrN (createExecutableScript m) "defer" =
        (if m.isDefer then some "" else none) ∧
      getAttrN (createExecutableScript m) "src" =
        (if m.hasSrc && attrTruthy m.attrs "src" then
          some (normalizeAttr ((lookupAttr m.attrs "src").getD "")) else none) ∧
      (m.hasSrc = false →
        nodeChildren (createExecutableScript m) = [Node.text (textContentL children)]) := by
  intro m hm
  have hm2 : m = mkScriptMeta (uidf c) attrs children := by
    simpa [extractScriptsWithPlaceholders, extractNodes, extractNode] using hm
  subst hm2
  have hbase : ∀ key : String, key ∈ specialAttrs →
      lookupAttr (attrs.filter (fun kv => !(specialAttrs.contains kv.1))) key = none := by
    intro key hkey
    refine lookupAttr_none_of_keys _ _ fun kv hkv => ?_
    have hf := (List.mem_filter.mp hkv).2
    intro heq
    rw [heq] at hf
    simp [List.contains, List.elem_eq_mem] at hf
    exact hf hkey
  have hbT : lookupAttr ((mkScriptMeta (uidf c) attrs children).attrs.filter
      (fun kv => !(specialAttrs.contains kv.1))) "type" = none :=
    hbase "type" (by simp [specialAttrs])
  have hbA : lookupAttr ((mkScriptMeta (uidf c) attrs children).attrs.filter
      (fun kv => !(specialAttrs.contains kv.1))) "async" = none :=
    hbase "async" (by simp [specialAttrs])
  have hbD : lookupAttr ((mkScriptMeta (uidf c) attrs children).attrs.filter
      (fun kv => !(specialAttrs.contains kv.1))) "defer" = none :=
    hbase "defer" (by simp [specialAttrs])
  have hbS : lookupAttr ((mkScriptMeta (uidf c) attrs children).attrs.filter
      (fun kv => !(specialAttrs.contains kv.1))) "src" = none :=
    hbase "src" (by simp [specialAttrs])
  refine ⟨?_, ?_, ?_, ?_, ?_, ?_⟩
  · intro k v hkv hks
    have hbk : lookupAttr ((mkScriptMeta (uidf c) attrs children).attrs.filter
        (fun kv => !(specialAttrs.contains kv.1))) k = some v := by
      apply lookupAttr_of_mem_nodup
      · exact List.Nodup.sublist ((List.filter_sublist attrs).map Prod.fst) hnd
      · refine List.mem_filter.mpr ⟨hkv, ?_⟩
        simp [List.contains, List.elem_eq_mem]
        exact hks
    simp only [getAttrN, createExecutableScript_attrs, lookupAttr_append, hbk,
      Option.or_some]
  · simp only [getAttrN, createExecutableScript_attrs, lookupAttr_append, hbT,
      Option.none_or, lookupAttr_guarded_eq,
      lookupAttr_guarded_ne _ "async" "" "type" (by decide),
      lookupAttr_guarded_ne _ "defer" "" "type" (by decide),
      lookupAttr_guarded_ne _ "src" _ "type" (by decide), Option.or_none]
  · simp only [getAttrN, createExecutableScript_attrs, lookupAttr_append, hbA,
      Option.none_or, lookupAttr_guarded_eq,
      lookupAttr_guarded_ne _ "type" "module" "async" (by decide),
      lookupAttr_guarded_ne _ "defer" "" "async" (by decide),
      lookupAttr_guarded_ne _ "src" _ "async" (by decide), Option.or_none]
  · simp only [getAttrN, createExecutableScript_attrs, lookupAttr_append, hbD,
      Option.none_or, lookupAttr_guarded_eq,
      lookupAttr_guarded_ne _ "type" "module" "defer" (by decide),
      lookupAttr_guarded_ne _ "async" "" "defer" (by decide),
      lookupAttr_guarded_ne _ "src" _ "defer" (by decide), Option.or_none]
  · simp only [getAttrN, createExecutableScript_attrs, lookupAttr_append, hbS,
      Option.none_or, lookupAttr_guarded_eq,
      lookupAttr_guarded_ne _ "type" "module" "src" (by decide),
      lookupAttr_guarded_ne _ "async" "" "src" (by decide),
      lookupAttr_guarded_ne _ "defer" "" "src" (by decide), Option.or_none]
  · intro h6
    simp only [mkScriptMeta] at h6
    simp [createExecutableScript, mkScriptMeta, h6, nodeChildren]

/-- Concrete attribute list for the round-trip witness. -/
def c8Attrs : List (String × String) :=
  [("data-x", "1"), ("type", "MoDuLe"), ("src", " u.js "), ("defer", "")]

/-- Concrete extracted record for the round-trip witness. -/
def c8Meta : ScriptMeta := mkScriptMeta "uid-0" c8Attrs []

/-- C8 witness: on a script element with a custom attribute, a mixed-case
module type, a padded external source and a defer flag, the re-created
element keeps the custom attribute verbatim and re-derives the special
four. -/
theorem createExecutableScript_roundtrip_witness :
    getAttrN (createExecutableScript c8Meta) "data-x" = some "1" ∧
    getAttrN (createExecutableScript c8Meta) "type" = some "module" ∧
    getAttrN (createExecutableScript c8Meta) "defer" = some "" ∧
    getAttrN (createExecutableScript c8Meta) "src" = some "u.js" :=
  ⟨(createExecutableScript_roundtrip uid0 0 c8Attrs [] (by decide) c8Meta
      (by decide)).1 "data-x" "1" (by decide) (by decide),
    ((createExecutableScript_roundtrip uid0 0 c8Attrs [] (by decide) c8Meta
      (by decide)).2.1).trans (by decide),
    ((createExecutableScript_roundtrip uid0 0 c8Attrs [] (by decide) c8Meta
      (by decide)).2.2.2.1).trans (by decide),
    ((createExecutableScript_roundtrip uid0 0 c8Attrs [] (by decide) c8Meta
      (by decide)).2.2.2.2.1).trans (by decide)⟩

/-! ## C5: the font-face dedup check and its snapshot semantics -/

theorem findSub_isSome_of (pat x y : List Char) :
    (findSub pat (x ++ pat ++ y)).isSome = true := by
  induction x with
  | nil =>
    have hstep : ∀ cs : List Char, pat.isPrefixOf cs = true →
        (findSub pat cs).isSome = true := by
      intro cs hp
      cases cs with
      | nil => simp [findSub, hp]
      | cons c t => simp [findSub, hp]
    exact hstep (pat ++ y) (by simp [List.isPrefixOf_iff_prefix])
  | cons c t ih =>
    simp only [List.cons_append, findSub]
    split
    · simp
    · simpa using ih

theorem findSub_sound (pat : List Char) :
    ∀ cs pre suf, findSub pat cs = some (pre, suf) → cs = pre ++ suf ∧ pat <+: suf := by
  intro cs
  induction cs with
  | nil =>
    intro pre suf h
    rw [findSub] at h
    split at h
    · rename_i hp
      simp only [Option.some.injEq, Prod.mk.injEq] at h
      obtain ⟨h1, h2⟩ := h
      subst h1
      subst h2
      exact ⟨rfl, by simpa [List.isPrefixOf_iff_prefix] using hp⟩
    · exact absurd h (by simp)
  | cons c t ih =>
    intro pre suf h
    rw [findSub] at h
    split at h
    · rename_i hp
      simp only [Option.some.injEq, Prod.mk.injEq] at h
      obtain ⟨h1, h2⟩ := h
      subst h1
      subst h2
      exact ⟨rfl, by simpa [List.isPrefixOf_iff_prefix] using hp⟩
    · rw [Option.map_eq_some'] at h
      obtain ⟨⟨p2, s2⟩, hf, heq⟩ := h
      obtain ⟨h1, h2⟩ := ih p2 s2 hf
      injection heq with he1 he2
      subst he1
      subst he2
      exact ⟨by simp [h1], h2⟩

theorem containsSub_iff (hay pat : List Char) :
    containsSub hay pat = true ↔ ∃ x y, hay = x ++ pat ++ y := by
  constructor
  · intro h
    rw [containsSub, Option.isSome_iff_exists] at h
    obtain ⟨⟨pre, suf⟩, hf⟩ := h
    obtain ⟨h1, h2⟩ := findSub_sound pat hay pre suf hf
    obtain ⟨rest, hr⟩ := h2
    exact ⟨pre, rest, by simp [h1, ← hr]⟩
  · rintro ⟨x, y, rfl⟩
    exact findSub_isSome_of pat x y

theorem containsSub_append_right (hay t pat : List Char)
    (h : containsSub hay pat = true) : containsSub (hay ++ t) pat = true := by
  rw [containsSub_iff] at h ⊢
  obtain ⟨x, y, rfl⟩ := h
  exact ⟨x, y ++ t, by simp⟩

theorem foldl_injectStep_isPrefix (e : List Char) (rules : List (List Char)) :
    ∀ acc, acc <+: rules.foldl (injectStep e) acc := by
  induction rules with
  | nil => intro acc; simp
  | cons r rs ih =>
    intro acc
    simp only [List.foldl_cons]
    refine List.IsPrefix.trans ?_ (ih (injectStep e acc r))
    rw [injectStep]
    split
    · exact List.prefix_refl _
    · exact List.prefix_append _ _

theorem foldl_injectStep_covers (e : List Char) (rules : List (List Char)) :
    ∀ acc r, r ∈ rules →
      containsSub e r = true ∨
        containsSub (rules.foldl (injectStep e) acc) r = true := by
  induction rules with
  | nil => intro acc r h; cases h
  | cons r0 rs ih =>
    intro acc r hr
    rcases List.mem_cons.mp hr with rfl | hmem
    · by_cases hc : containsSub e r = true
      · exact Or.inl hc
      · right
        simp only [List.foldl_cons, injectStep, if_neg hc]
        obtain ⟨t, ht⟩ := foldl_injectStep_isPrefix e rs (acc ++ '\n' :: r)
        rw [← ht]
        apply containsSub_append_right
        rw [containsSub_iff]
        exact ⟨acc ++ ['\n'], [], by simp⟩
    · exact ih (injectStep e acc r0) r hmem

theorem foldl_injectStep_noop (e : List Char) (rules : List (List Char))
    (h : ∀ r ∈ rules, containsSub e r = true) :
    ∀ acc, rules.foldl (injectStep e) acc = acc := by
  induction rules with
  | nil => intro acc; rfl
  | cons r rs ih =>
    intro acc
    simp only [List.foldl_cons, injectStep, if_pos (h r (List.mem_cons_self _ _))]
    exact ih (fun r2 h2 => h r2 (List.mem_cons_of_mem _ h2)) acc

/-- C5 counterexample.  A single extraction call whose markup contains the
same font-face rule text twice appends it twice: the dedup check compares
against a snapshot of the style element's content taken before the loop, so
the first append is invisible to the second.  The resulting style-element
text contains the rule at two disjoint positions, refuting the claimed
invariant that the element never holds two rules with identical text. -/
theorem fontFace_duplicate_in_single_call :
    (extractAndInjectFontFaces ["@font-face{a}@font-face{a}".data] none).1 =
      some ('\n' :: "@font-face{a}".data ++ '\n' :: "@font-face{a}".data) ∧
    (∃ u w z, '\n' :: "@font-face{a}".data ++ '\n' :: "@font-face{a}".data =
      u ++ "@font-face{a}".data ++ w ++ "@font-face{a}".data ++ z) :=
  ⟨by decide, ⟨['\n'], ['\n'], [], by decide⟩⟩

/-- C5 (amended).  The dedup check is against the style element's content as
snapshotted at the start of the call: a rule is appended only if it was not
already contained in that snapshot, and re-running the extraction with the
same style blocks appends nothing (the second call leaves the element text
unchanged).  Duplicates are only possible within a single call. -/
theorem fontFace_dedup_snapshot (styleTexts : List (List Char))
    (doc : Option (List Char)) :
    (∀ r, DocEffect.append r ∈ (extractAndInjectFontFaces styleTexts doc).2 →
      containsSub (doc.getD []) r = false) ∧
    (extractAndInjectFontFaces styleTexts
        ((extractAndInjectFontFaces styleTexts doc).1)).1 =
      (extractAndInjectFontFaces styleTexts doc).1 := by
  constructor
  · intro r hr
    by_cases hemp : (styleTexts.flatMap extractFontFaceRules).isEmpty
    · simp [extractAndInjectFontFaces, hemp] at hr
    · simp only [extractAndInjectFontFaces, hemp, Bool.false_eq_true, if_false,
        List.mem_cons, List.mem_append, List.mem_map] at hr
      rcases hr with (h1 | h3) | h4
      · exact absurd h1 (by simp)
      · split at h3 <;> simp at h3
      · obtain ⟨r2, hr2, heq⟩ := h4
        injection heq with he
        subst he
        have := (List.mem_filter.mp hr2).2
        simpa using this
  · by_cases hemp : (styleTexts.flatMap extractFontFaceRules).isEmpty
    · simp [extractAndInjectFontFaces, hemp]
    · have hcov : ∀ r ∈ styleTexts.flatMap extractFontFaceRules,
          containsSub ((styleTexts.flatMap extractFontFaceRules).foldl
            (injectStep (doc.getD [])) (doc.getD [])) r = true := by
        intro r hr
        rcases foldl_injectStep_covers (doc.getD [])
            (styleTexts.flatMap extractFontFaceRules) (doc.getD []) r hr with h | h
        · obtain ⟨t, ht⟩ := foldl_injectStep_isPrefix (doc.getD [])
            (styleTexts.flatMap extractFontFaceRules) (doc.getD [])
          rw [← ht]
          exact containsSub_append_right _ _ _ h
        · exact h
      simp only [extractAndInjectFontFaces, hemp, Bool.false_eq_true, if_false,
        Option.getD_some, Option.some.injEq]
      exact foldl_injectStep_noop _ _ hcov _

/-- C5 witness: in the duplicate-markup call against an absent style element,
every appended rule was indeed absent from the (empty) snapshot. -/
theorem fontFace_dedup_snapshot_witness :
    containsSub ((none : Option (List Char)).getD []) "@font-face{a}".data = false :=
  (fontFace_dedup_snapshot ["@font-face{a}@font-face{a}".data] none).1
    "@font-face{a}".data (by decide)

/-! ## C4: brace-counted font-face extraction

A stylesheet text containing well-formed font-face blocks is described by
`blocksText`: alternating separator text and blocks, each block being the
token, some pre-brace text, an opening brace, a brace-balanced body and the
matching closing brace, followed by an arbitrary trailing text.  Conditions:
separators contain no `@` (so the token search cannot fire early), pre-brace
text contains no opening brace, and the body closes exactly at its final
brace (expressed directly as a `scanBraces` computation, which is decidable).
-/

/-- `sep ++ "@font-face" ++ mid ++ "{" ++ inner ++ "}"` for each listed block
`(sep, mid, inner)`, then the trailing text. -/
def blocksText : List (List Char × List Char × List Char) → List Char → List Char
  | [], tail => tail
  | (sep, mid, inner) :: rest, tail =>
    sep ++ (ffToken ++ (mid ++ ('{' :: (inner ++ ('}' :: blocksText rest tail)))))

/-- The rule the scanner extracts for one block: the trimmed text from the
token through the matching closing brace. -/
def blockRule (b : List Char × List Char × List Char) : List Char :=
  trimL ((ffToken ++ b.2.1) ++ '{' :: (b.2.2 ++ ['}']))

/-- Well-formedness of one block `(sep, mid, inner)`. -/
def WFBlock (b : List Char × List Char × List Char) : Prop :=
  '@' ∉ b.1 ∧ '{' ∉ b.2.1 ∧
    scanBraces 1 (b.2.2 ++ ['}']) = some (b.2.2 ++ ['}'], [])

instance (b : List Char × List Char × List Char) : Decidable (WFBlock b) := by
  unfold WFBlock
  infer_instance

theorem isPrefixOf_append_self (xs ys : List Char) :
    xs.isPrefixOf (xs ++ ys) = true := by
  simp [List.isPrefixOf_iff_prefix]

theorem findSub_split (h : Char) (patT : List Char) :
    ∀ pre suf, h ∉ pre → (h :: patT).isPrefixOf suf = true →
      findSub (h :: patT) (pre ++ suf) = some (pre, suf) := by
  intro pre
  induction pre with
  | nil =>
    intro suf _ hsuf
    cases suf with
    | nil => simp [List.isPrefixOf] at hsuf
    | cons c t => simp [findSub, hsuf]
  | cons c p ih =>
    intro suf hpre hsuf
    simp only [List.mem_cons, not_or] at hpre
    obtain ⟨hne, hpre2⟩ := hpre
    have hb : (h == c) = false := beq_eq_false_iff_ne.mpr hne
    have hp : (h :: patT).isPrefixOf (c :: (p ++ suf)) = false := by
      simp [List.isPrefixOf, hb]
    simp only [List.cons_append, List.append_eq, findSub, hp, Bool.false_eq_true, if_false]
    rw [ih suf hpre2 hsuf]
    rfl

theorem findSub_none_of_head (h : Char) (patT : List Char) :
    ∀ cs, h ∉ cs → findSub (h :: patT) cs = none := by
  intro cs
  induction cs with
  | nil => intro; simp [findSub, List.isPrefixOf]
  | cons c t ih =>
    intro hno
    simp only [List.mem_cons, not_or] at hno
    have hb : (h == c) = false := beq_eq_false_iff_ne.mpr hno.1
    simp [findSub, List.isPrefixOf, hb, ih hno.2]

theorem scanBraces_append :
    ∀ (xs : List Char) (d : Nat) (con rest ys : List Char),
      scanBraces d xs = some (con, rest) →
      scanBraces d (xs ++ ys) = some (con, rest ++ ys) := by
  intro xs
  induction xs with
  | nil => intro d con rest ys hsc; simp [scanBraces] at hsc
  | cons c t ih =>
    intro d con rest ys hsc
    simp only [List.cons_append, scanBraces, List.append_eq] at hsc ⊢
    by_cases h0 : (if c = '{' then d + 1 else if c = '}' then d - 1 else d) = 0
    · rw [if_pos h0] at hsc ⊢
      simp only [Option.some.injEq, Prod.mk.injEq] at hsc
      obtain ⟨h1, h2⟩ := hsc
      subst h1
      subst h2
      rfl
    · rw [if_neg h0] at hsc ⊢
      rw [Option.map_eq_some'] at hsc
      obtain ⟨⟨c2, r2⟩, hsc2, heq⟩ := hsc
      injection heq with he1 he2
      subst he1
      subst he2
      rw [ih _ c2 r2 ys hsc2]
      rfl

theorem extractRulesLoop_step (f : Nat) (sep mid inner K : List Char)
    (hsep : '@' ∉ sep) (hmid : '{' ∉ mid)
    (hscan : scanBraces 1 (inner ++ ['}']) = some (inner ++ ['}'], [])) :
    extractRulesLoop (f + 1)
        (sep ++ (ffToken ++ (mid ++ ('{' :: (inner ++ ('}' :: K)))))) =
      trimL ((ffToken ++ mid) ++ '{' :: (inner ++ ['}'])) :: extractRulesLoop f K := by
  have htok : ffToken = '@' :: "font-face".data := rfl
  have h1 : findSub ffToken
      (sep ++ (ffToken ++ (mid ++ ('{' :: (inner ++ ('}' :: K)))))) =
      some (sep, ffToken ++ (mid ++ ('{' :: (inner ++ ('}' :: K))))) := by
    rw [htok]
    exact findSub_split '@' _ sep _ hsep (isPrefixOf_append_self _ _)
  have h2 : findSub ['{'] (ffToken ++ (mid ++ ('{' :: (inner ++ ('}' :: K))))) =
      some (ffToken ++ mid, '{' :: (inner ++ ('}' :: K))) := by
    rw [← List.append_assoc]
    refine findSub_split '{' [] (ffToken ++ mid) _ ?_ ?_
    · intro hmem
      rcases List.mem_append.mp hmem with hmem2 | hmem2
      · revert hmem2
        decide
      · exact hmid hmem2
    · simp [List.isPrefixOf]
  have h3 : scanBraces 1 (inner ++ ('}' :: K)) = some (inner ++ ['}'], K) := by
    have h4 := scanBraces_append (inner ++ ['}']) 1 (inner ++ ['}']) [] K hscan
    simpa using h4
  simp only [extractRulesLoop, h1, h2, h3]

theorem extractRulesLoop_no_at (f : Nat) (tail : List Char) (h : '@' ∉ tail) :
    extractRulesLoop f tail = [] := by
  cases f with
  | zero => rfl
  | succ f =>
    have h1 : findSub ffToken tail = none := findSub_none_of_head '@' _ tail h
    simp only [extractRulesLoop, h1]

theorem extractRulesLoop_malformed (f : Nat) (sepT midT innerT : List Char)
    (hsep : '@' ∉ sepT) (hmid : '{' ∉ midT)
    (hscan : scanBraces 1 innerT = none) :
    extractRulesLoop f (sepT ++ (ffToken ++ (midT ++ ('{' :: innerT)))) = [] := by
  cases f with
  | zero => rfl
  | succ f =>
    have htok : ffToken = '@' :: "font-face".data := rfl
    have h1 : findSub ffToken (sepT ++ (ffToken ++ (midT ++ ('{' :: innerT)))) =
        some (sepT, ffToken ++ (midT ++ ('{' :: innerT))) := by
      rw [htok]
      exact findSub_split '@' _ sepT _ hsep (isPrefixOf_append_self _ _)
    have h2 : findSub ['{'] (ffToken ++ (midT ++ ('{' :: innerT))) =
        some (ffToken ++ midT, '{' :: innerT) := by
      rw [← List.append_assoc]
      refine findSub_split '{' [] (ffToken ++ midT) _ ?_ ?_
      · intro hmem
        rcases List.mem_append.mp hmem with hmem2 | hmem2
        · revert hmem2
          decide
        · exact hmid hmem2
      · simp [List.isPrefixOf]
    simp only [extractRulesLoop, h1, h2, hscan]

theorem blocksText_length (bs : List (List Char × List Char × List Char))
    (tail : List Char) : bs.length ≤ (blocksText bs tail).length := by
  induction bs with
  | nil => simp [blocksText]
  | cons b rest ih =>
    obtain ⟨s, m, i⟩ := b
    simp only [blocksText, List.length_append, List.length_cons, List.length_map]
    simp at ih ⊢
    omega

theorem extractRulesLoop_blocks (bs : List (List Char × List Char × List Char)) :
    ∀ (fuel : Nat) (tail : List Char), (∀ b ∈ bs, WFBlock b) → bs.length ≤ fuel →
      extractRulesLoop fuel (blocksText bs tail) =
        bs.map blockRule ++ extractRulesLoop (fuel - bs.length) tail := by
  induction bs with
  | nil => intro fuel tail _ _; simp [blocksText]
  | cons b rest ih =>
    intro fuel tail hwf hlen
    obtain ⟨sep, mid, inner⟩ := b
    cases fuel with
    | zero => simp at hlen
    | succ f =>
      obtain ⟨h1, h2, h3⟩ := hwf _ (List.mem_cons_self _ _)
      rw [blocksText, extractRulesLoop_step f sep mid inner (blocksText rest tail) h1 h2 h3,
        ih f tail (fun b2 hb2 => hwf b2 (List.mem_cons_of_mem _ hb2)) (by simp at hlen; omega)]
      simp [blockRule, Nat.succ_sub_succ]

/-- C4.  For a stylesheet text consisting of N well-formed font-face blocks
(separators without `@`, bodies brace-balanced), the scanning loop of
`extractAndInjectFontFaces` returns exactly the N trimmed rules, each running
from the token through its matching closing brace, resuming after that brace;
and when the text ends with a malformed block (an opening brace whose
brace-count never returns to zero), scanning stops silently and the N rules
already found are kept. -/
theorem fontFace_brace_extraction (bs : List (List Char × List Char × List Char))
    (hwf : ∀ b ∈ bs, WFBlock b) :
    (∀ tail, '@' ∉ tail →
      extractFontFaceRules (blocksText bs tail) = bs.map blockRule) ∧
    (∀ sepT midT innerT, '@' ∉ sepT → '{' ∉ midT → scanBraces 1 innerT = none →
      extractFontFaceRules
          (blocksText bs (sepT ++ (ffToken ++ (midT ++ ('{' :: innerT))))) =
        bs.map blockRule) := by
  constructor
  · intro tail htail
    rw [extractFontFaceRules,
      extractRulesLoop_blocks bs _ tail hwf
        (le_trans (blocksText_length bs tail) (Nat.le_succ _)),
      extractRulesLoop_no_at _ tail htail, List.append_nil]
  · intro sepT midT innerT hsep hmid hscan
    rw [extractFontFaceRules,
      extractRulesLoop_blocks bs _ _ hwf
        (le_trans (blocksText_length bs _) (Nat.le_succ _)),
      extractRulesLoop_malformed _ sepT midT innerT hsep hmid hscan, List.append_nil]

/-- C4 witness: a two-block stylesheet (the second with a nested inner brace
pair) yields exactly its two rules, both for a clean trailing text and for a
trailing text holding a malformed, never-closing block. -/
theorem fontFace_brace_extraction_witness :
    extractFontFaceRules (blocksText
        [("x".data, " ".data, "a".data), ("y".data, [], "k{v}".data)] "z".data) =
      List.map blockRule
        [("x".data, " ".data, "a".data), ("y".data, [], "k{v}".data)] ∧
    extractFontFaceRules (blocksText
        [("x".data, " ".data, "a".data), ("y".data, [], "k{v}".data)]
        ("w".data ++ (ffToken ++ ([] ++ ('{' :: "\x7b\x7b".data))))) =
      List.map blockRule
        [("x".data, " ".data, "a".data), ("y".data, [], "k{v}".data)] :=
  ⟨(fontFace_brace_extraction _ (by decide)).1 "z".data (by decide),
    (fontFace_brace_extraction _ (by decide)).2 "w".data [] "\x7b\x7b".data
      (by decide) (by decide) (by decide)⟩
